import Mathlib

/-!
# Verification of the skora TIFF container engine

Shallow embedding of `src/endian_rw.rs`, `src/tiff_types.rs` and
`src/tiff.rs`.  Rust machine integers (`u8`/`u16`/`u32`/`u64`/`usize`)
are modeled as `Nat`; every quantity handled by the program is produced
by fixed-width reads and stays within its width, so arithmetic is exact
on the modeled runs.  Rust panics (out-of-range slice indexing,
`Option::unwrap` on `None`, out-of-range `Vec` index assignment,
explicit `panic!`) are modeled explicitly: fallible computations return
`Option` (with `none` = panic) or the `RunRes` outcome type below.
-/

namespace Skora

/-- Byte order of the data (`endian_rw.rs`, `enum Endian`). -/
inductive Endian where
  | Big : Endian
  | Little : Endian
deriving DecidableEq

/-- Big-endian value of a byte list (most significant byte first). -/
def beVal (bytes : List Nat) : Nat :=
  bytes.foldl (fun acc b => acc * 256 + b) 0

/-- `order_read(endian, buffer, size)`: read an n-byte integer from the
first `size` bytes of `buffer` in the given byte order
(`byteorder::read_uint`). -/
def orderRead (endian : Endian) (buffer : List Nat) (size : Nat) : Nat :=
  match endian with
  | .Big => beVal (buffer.take size)
  | .Little => beVal (buffer.take size).reverse

/-- The two bytes appended by `order_write_16`. -/
def bytes16 (endian : Endian) (data : Nat) : List Nat :=
  match endian with
  | .Big => [data / 256 % 256, data % 256]
  | .Little => [data % 256, data / 256 % 256]

/-- The four bytes appended by `order_write_32`. -/
def bytes32 (endian : Endian) (data : Nat) : List Nat :=
  match endian with
  | .Big => [data / 2 ^ 24 % 256, data / 2 ^ 16 % 256, data / 2 ^ 8 % 256, data % 256]
  | .Little => [data % 256, data / 2 ^ 8 % 256, data / 2 ^ 16 % 256, data / 2 ^ 24 % 256]

/-- The eight bytes appended by `order_write_64`. -/
def bytes64 (endian : Endian) (data : Nat) : List Nat :=
  match endian with
  | .Big => [data / 2 ^ 56 % 256, data / 2 ^ 48 % 256, data / 2 ^ 40 % 256,
      data / 2 ^ 32 % 256, data / 2 ^ 24 % 256, data / 2 ^ 16 % 256,
      data / 2 ^ 8 % 256, data % 256]
  | .Little => [data % 256, data / 2 ^ 8 % 256, data / 2 ^ 16 % 256, data / 2 ^ 24 % 256,
      data / 2 ^ 32 % 256, data / 2 ^ 40 % 256, data / 2 ^ 48 % 256, data / 2 ^ 56 % 256]

/-- `order_write_8(endian, buffer, data)`: push one byte. -/
def orderWrite8 (_endian : Endian) (buffer : List Nat) (data : Nat) : List Nat :=
  buffer ++ [data]

/-- `order_write_16(endian, buffer, data)`: append two bytes. -/
def orderWrite16 (endian : Endian) (buffer : List Nat) (data : Nat) : List Nat :=
  buffer ++ bytes16 endian data

/-- `order_write_32(endian, buffer, data)`: append four bytes. -/
def orderWrite32 (endian : Endian) (buffer : List Nat) (data : Nat) : List Nat :=
  buffer ++ bytes32 endian data

/-- `order_write_64(endian, buffer, data)`: append eight bytes. -/
def orderWrite64 (endian : Endian) (buffer : List Nat) (data : Nat) : List Nat :=
  buffer ++ bytes64 endian data

/-- Rust range slicing `&l[s..e]`: panics (`none`) unless `s ≤ e ≤ l.len()`. -/
def slicePanic (l : List Nat) (s e : Nat) : Option (List Nat) :=
  if s ≤ e ∧ e ≤ l.length then some ((l.drop s).take (e - s)) else none

/-- Rust index assignment `l[i] = v`: panics (`none`) when `i` is out of range. -/
def setPanic (l : List Nat) (i v : Nat) : Option (List Nat) :=
  if i < l.length then some (l.set i v) else none

/-- `check_offset(source_length, offset, length)` (`tiff.rs`):
`(offset >= 8) & (offset + length <= source_length)`. -/
def check_offset (source_length offset length : Nat) : Bool :=
  (8 ≤ offset) && (offset + length ≤ source_length)

/-- `enum DataType` (`tiff_types.rs`). -/
inductive DataType where
  | Byte : DataType
  | Ascii : DataType
  | Short : DataType
  | Long : DataType
  | Rational : DataType
deriving DecidableEq

/-- `impl From<u16> for DataType`: the `_ => panic!()` arm is modeled as
`none`. -/
def DataType.fromNat (n : Nat) : Option DataType :=
  match n with
  | 1 => some .Byte
  | 2 => some .Ascii
  | 3 => some .Short
  | 4 => some .Long
  | 5 => some .Rational
  | _ => none

/-- Modelled from the spec: `DataType::element_size_in_bytes` is called
from `tiff.rs` (entry classification and tag value resolution) but its
definition is not under `src/`; spec §3 states each variant's
per-element byte width is 1/1/2/4/8, matching the parallel
`Data::element_size_in_bytes` in `tiff_types.rs`. -/
def DataType.element_size_in_bytes : DataType → Nat
  | .Byte => 1
  | .Ascii => 1
  | .Short => 2
  | .Long => 4
  | .Rational => 8

/-- Modelled from the spec: `DataType::type_tiff_id` is called from
`copy_ifd` but its definition is not under `src/`; spec §3 states each
variant's TIFF-spec type identifier is 1/2/3/4/5, matching the parallel
`Data::type_tiff_id` in `tiff_types.rs`. -/
def DataType.type_tiff_id : DataType → Nat
  | .Byte => 1
  | .Ascii => 2
  | .Short => 3
  | .Long => 4
  | .Rational => 5

/-- `enum Data` (`tiff_types.rs`).  The `f64` component of a rational is
modeled as the exact rational `num / den : Rat` (the decoder recomputes
it from the stored numerator/denominator pair, so round-trip facts only
depend on the same function of the pair being used on both sides). -/
inductive Data where
  | Byte : List Nat → Data
  | Ascii : String → Data
  | Short : List Nat → Data
  | Long : List Nat → Data
  | Rational : List (Rat × Nat × Nat) → Data
deriving DecidableEq

/-- UTF-8 encoding of one scalar value (byte list). -/
def utf8EncodeCharNat (n : Nat) : List Nat :=
  if n < 0x80 then [n]
  else if n < 0x800 then [0xC0 + n / 64, 0x80 + n % 64]
  else if n < 0x10000 then [0xE0 + n / 4096, 0x80 + n / 64 % 64, 0x80 + n % 64]
  else [0xF0 + n / 262144, 0x80 + n / 4096 % 64, 0x80 + n / 64 % 64, 0x80 + n % 64]

/-- The UTF-8 bytes underlying a Rust `String` (what `String::into_bytes`
returns). -/
def strBytes (s : String) : List Nat :=
  (s.data.map (fun c => utf8EncodeCharNat c.toNat)).flatten

/-- Is `b` a UTF-8 continuation byte? -/
def isCont (b : Nat) : Bool := 0x80 ≤ b && b < 0xC0

/-- The replacement character U+FFFD used by `String::from_utf8_lossy`. -/
def replChar : Char := Char.ofNat 0xFFFD

/-- One UTF-8 sequence step of `String::from_utf8_lossy`: classify the
lead byte `b0`, examine the continuation bytes, and return the decoded
character (U+FFFD for an invalid sequence) together with the unconsumed
tail.  On an invalid sequence this model skips the examined bytes; the
source's maximal-subpart resynchronization differs only on invalid
inputs, which no claim exercises — on every valid input the two agree. -/
def utf8Step (b0 : Nat) (rest : List Nat) : Char × List Nat :=
  if b0 < 0x80 then (Char.ofNat b0, rest)
  else if 0xC0 ≤ b0 ∧ b0 < 0xE0 then
    match rest with
    | b1 :: rest2 =>
      if isCont b1 ∧ 0x80 ≤ (b0 - 0xC0) * 64 + (b1 - 0x80) then
        (Char.ofNat ((b0 - 0xC0) * 64 + (b1 - 0x80)), rest2)
      else (replChar, rest2)
    | [] => (replChar, [])
  else if 0xE0 ≤ b0 ∧ b0 < 0xF0 then
    match rest with
    | b1 :: b2 :: rest3 =>
      if isCont b1 ∧ isCont b2 ∧
          (let n := (b0 - 0xE0) * 4096 + (b1 - 0x80) * 64 + (b2 - 0x80)
           0x800 ≤ n ∧ (n < 0xD800 ∨ 0xE000 ≤ n)) then
        (Char.ofNat ((b0 - 0xE0) * 4096 + (b1 - 0x80) * 64 + (b2 - 0x80)), rest3)
      else (replChar, rest3)
    | [_] => (replChar, [])
    | [] => (replChar, [])
  else if 0xF0 ≤ b0 ∧ b0 < 0xF5 then
    match rest with
    | b1 :: b2 :: b3 :: rest4 =>
      if isCont b1 ∧ isCont b2 ∧ isCont b3 ∧
          (let n := (b0 - 0xF0) * 262144 + (b1 - 0x80) * 4096 + (b2 - 0x80) * 64 +
              (b3 - 0x80)
           0x10000 ≤ n ∧ n < 0x110000) then
        (Char.ofNat ((b0 - 0xF0) * 262144 + (b1 - 0x80) * 4096 + (b2 - 0x80) * 64 +
            (b3 - 0x80)), rest4)
      else (replChar, rest4)
    | [_, _] => (replChar, [])
    | [_] => (replChar, [])
    | [] => (replChar, [])
  else (replChar, rest)

/-- UTF-8 decoding of a byte list into characters, replacing invalid
sequences with U+FFFD (`String::from_utf8_lossy`): repeat `utf8Step`
until the input is exhausted. -/
def utf8DecodeLossy : List Nat → List Char
  | [] => []
  | b0 :: rest => (utf8Step b0 rest).1 :: utf8DecodeLossy (utf8Step b0 rest).2
termination_by l => l.length
decreasing_by
  simp only [List.length_cons]
  have h : (utf8Step b0 rest).2.length ≤ rest.length := by
    unfold utf8Step
    repeat' split
    all_goals simp_all
    all_goals omega
  omega

/-- `String::from_utf8_lossy(&raw).to_string()`. -/
def fromUtf8Lossy (raw : List Nat) : String :=
  ⟨utf8DecodeLossy raw⟩

/-- `Data::new(raw_data, data_type, endian, count)` (`tiff_types.rs`).
Each loop `for n in 0..count { raw_data[start..end] }` is the
corresponding map over `List.range count`; every call site hands a
`raw_data` of exactly the sliced extent, so plain (truncating) slicing
coincides with the source's panicking slice on all modeled runs. -/
def Data.new (raw_data : List Nat) (data_type : DataType) (endian : Endian)
    (count : Nat) : Data :=
  match data_type with
  | .Byte =>
    Data.Byte ((List.range count).map fun n =>
      orderRead endian ((raw_data.drop n).take 1) 1)
  | .Ascii => Data.Ascii (fromUtf8Lossy raw_data)
  | .Short =>
    Data.Short ((List.range count).map fun n =>
      orderRead endian ((raw_data.drop (n * 2)).take 2) 2)
  | .Long =>
    Data.Long ((List.range count).map fun n =>
      orderRead endian ((raw_data.drop (n * 4)).take 4) 4)
  | .Rational =>
    let tag_data_raw := (List.range (count * 2)).map fun n =>
      orderRead endian ((raw_data.drop (n * 4)).take 4) 4
    Data.Rational ((List.range count).map fun n =>
      ((tag_data_raw.getD (n * 2) 0 : Rat) / (tag_data_raw.getD (n * 2 + 1) 0 : Rat),
        tag_data_raw.getD (n * 2) 0, tag_data_raw.getD (n * 2 + 1) 0))

/-- `Data::to_vec_u8(&self, endian)` (`tiff_types.rs`). -/
def Data.to_vec_u8 (d : Data) (endian : Endian) : List Nat :=
  match d with
  | .Byte val => val.foldl (fun buf number => orderWrite8 endian buf number) []
  | .Ascii val => strBytes val
  | .Short val => val.foldl (fun buf number => orderWrite16 endian buf number) []
  | .Long val => val.foldl (fun buf number => orderWrite32 endian buf number) []
  | .Rational val =>
    val.foldl (fun buf number => orderWrite32 endian (orderWrite32 endian buf number.2.1)
      number.2.2) []

/-- `Data::element_size_in_bytes` (`tiff_types.rs`). -/
def Data.element_size_in_bytes : Data → Nat
  | .Byte _ => 1
  | .Ascii _ => 1
  | .Short _ => 2
  | .Long _ => 4
  | .Rational _ => 8

/-- `Data::type_tiff_id` (`tiff_types.rs`). -/
def Data.type_tiff_id : Data → Nat
  | .Byte _ => 1
  | .Ascii _ => 2
  | .Short _ => 3
  | .Long _ => 4
  | .Rational _ => 5

end Skora

namespace Skora

/-- `struct Info` (`tiff_types.rs`): top level metadata of the file. -/
structure Info where
  endian : Endian
  big_tiff : Bool
  first_ifd : Nat
  header : List Nat
  size : Nat
deriving DecidableEq

/-- `struct Tag` (`tiff_types.rs`).  The `ifds` field is only ever `None`
or `Some(Vec::new())` in the source (sub-directories go to the flat
list, never into this field), so its payload is modeled as `Unit`. -/
structure Tag where
  count : Nat
  data : Data
  datapos : Nat
  datatype : DataType
  ifds : Option Unit
  offset : Option Nat
deriving DecidableEq

/-- `struct Ifd` (`tiff_types.rs`).  The `BTreeMap<u64, Tag>` is modeled
as an association list kept sorted by ascending key (the order
`BTreeMap` iterates in). -/
structure Ifd where
  endian : Endian
  big_tiff : Bool
  offset : Nat
  size : Nat
  tag_count : Nat
  tags : List (Nat × Tag)
deriving DecidableEq

/-- `BTreeMap::insert`: keep keys sorted ascending, overwrite an equal
key (last write wins). -/
def btreeInsert (m : List (Nat × Tag)) (k : Nat) (v : Tag) : List (Nat × Tag) :=
  match m with
  | [] => [(k, v)]
  | (k0, v0) :: rest =>
    if k < k0 then (k, v) :: (k0, v0) :: rest
    else if k = k0 then (k, v) :: rest
    else (k0, v0) :: btreeInsert rest k v

/-- `BTreeMap` lookup (`map[&k]` panics when absent: callers lift the
`none`). -/
def btreeFind (m : List (Nat × Tag)) (k : Nat) : Option Tag :=
  match m with
  | [] => none
  | (k0, v0) :: rest => if k = k0 then some v0 else btreeFind rest k

/-- Outcome of running a piece of the decoder: a returned value, a
returned `Err(String)`, a Rust panic, or fuel exhaustion of the model
(the source's unbounded `while` loops are modeled with fuel). -/
inductive RunRes (α : Type) where
  | ok : α → RunRes α
  | err : String → RunRes α
  | panic : RunRes α
  | fuelOut : RunRes α
deriving DecidableEq

/-- Sequencing of decoder steps. -/
def RunRes.bind {α β : Type} : RunRes α → (α → RunRes β) → RunRes β
  | .ok a, f => f a
  | .err e, _ => .err e
  | .panic, _ => .panic
  | .fuelOut, _ => .fuelOut

instance : Monad RunRes where
  pure := RunRes.ok
  bind := RunRes.bind

/-- A potentially panicking step (`none` = panic) run inside the decoder. -/
def liftPanic {α : Type} : Option α → RunRes α
  | some a => RunRes.ok a
  | none => RunRes.panic

/-- The per-variant field reads of one directory entry (`tiff.rs`
143-183): returns tag id, data type, count, raw slot value, slot bytes
as `Data::Byte`, the offset just past the entry, and the slot width. -/
def parseEntryRaw (file : List Nat) (endian : Endian) (bigTiff : Bool) (offset : Nat) :
    Option (Nat × DataType × Nat × Nat × Data × Nat × Nat) :=
  if bigTiff then do
      let b1 ← slicePanic file offset (offset + 2)
      let tag := orderRead endian b1 2
      let b2 ← slicePanic file (offset + 2) (offset + 4)
      let datatype ← DataType.fromNat (orderRead endian b2 2)
      let b3 ← slicePanic file (offset + 4) (offset + 12)
      let count := orderRead endian b3 8
      let b4 ← slicePanic file (offset + 12) (offset + 20)
      let data_tmp := orderRead endian b4 8
      let data := Data.Byte (match endian with
        | .Big => bytes64 .Big data_tmp
        | .Little => bytes64 .Little data_tmp)
      pure (tag, datatype, count, data_tmp, data, offset + 20, 8)
    else do
      let b1 ← slicePanic file offset (offset + 2)
      let tag := orderRead endian b1 2
      let b2 ← slicePanic file (offset + 2) (offset + 4)
      let datatype ← DataType.fromNat (orderRead endian b2 2)
      let b3 ← slicePanic file (offset + 4) (offset + 8)
      let count := orderRead endian b3 4
      let b4 ← slicePanic file (offset + 8) (offset + 12)
      let data_tmp := orderRead endian b4 4
      let data := Data.Byte (match endian with
        | .Big => bytes64 .Big data_tmp
        | .Little => bytes64 .Little data_tmp)
      pure (tag, datatype, count, data_tmp, data, offset + 12, 4)

/-- One directory entry of `read_ifd`'s `for _entry in 0..tag_count`
loop (`tiff.rs` 135-207): returns the tag id, the `Tag` record and the
offset just past the entry.  The value slot is classified out-of-line
exactly when `count * data_element_size > data_length`. -/
def parseEntry (file : List Nat) (endian : Endian) (bigTiff : Bool) (offset : Nat) :
    Option ((Nat × Tag) × Nat) := do
  let (tag, datatype, count, data_tmp, data, offset2, data_length) ←
    parseEntryRaw file endian bigTiff offset
  let tag_info : Tag :=
    { count := count, data := data, datapos := offset2 - data_length,
      datatype := datatype, ifds := none,
      offset := if count * datatype.element_size_in_bytes > data_length
        then some data_tmp else none }
  pure ((tag, tag_info), offset2)

/-- The whole entry loop of `read_ifd`: parse `count` entries starting
at `offset`, inserting each into the tag map (a duplicate id is only
logged; the insert overwrites). -/
def entriesLoop (file : List Nat) (endian : Endian) (bigTiff : Bool) :
    Nat → Nat → List (Nat × Tag) → Option (List (Nat × Tag) × Nat)
  | 0, offset, tags => some (tags, offset)
  | n + 1, offset, tags => do
    let ((tag, tag_info), offset2) ← parseEntry file endian bigTiff offset
    entriesLoop file endian bigTiff n offset2 (btreeInsert tags tag tag_info)

mutual

/-- `read_ifd` (`tiff.rs` 100-218): read one directory at `ifd_offset`,
resolve its tag data (recursing into tag-330 sub-directories, which are
appended to `ifd_list` first), append the directory itself, and return
the trailing next-directory pointer.  An invalid directory offset
returns `None` without touching the list. -/
def readIfd (file : List Nat) (info : Info) (ifdOffset : Nat) (ifdList : List Ifd) :
    Nat → RunRes (Option Nat × List Ifd)
  | 0 => .fuelOut
  | fuel + 1 =>
    match check_offset info.size ifdOffset (if info.big_tiff then 16 else 6) with
    | false => .ok (none, ifdList)
    | true => do
      let (tagCount, offset1) ←
        if info.big_tiff then do
          let b ← liftPanic (slicePanic file ifdOffset (ifdOffset + 8))
          pure (orderRead info.endian b 8, ifdOffset + 8)
        else do
          let b ← liftPanic (slicePanic file ifdOffset (ifdOffset + 2))
          pure (orderRead info.endian b 2, ifdOffset + 2)
      let (tags, offset2) ← liftPanic (entriesLoop file info.endian info.big_tiff
        tagCount offset1 [])
      let nextIfd ←
        if info.big_tiff then do
          let b ← liftPanic (slicePanic file offset2 (offset2 + 8))
          pure (orderRead info.endian b 8)
        else do
          let b ← liftPanic (slicePanic file offset2 (offset2 + 4))
          pure (orderRead info.endian b 4)
      let (tags2, ifdList2) ← tagDataLoop file info tags ifdList fuel
      let ifd : Ifd :=
        { offset := ifdOffset, tags := tags2, size := info.size,
          endian := info.endian, big_tiff := info.big_tiff, tag_count := tagCount }
      pure (some nextIfd, ifdList2 ++ [ifd])

/-- `read_ifd_tag_data` (`tiff.rs` 229-264), one tag at a time in
ascending tag order: compute the effective position and byte span, call
`check_offset` (failure is only logged — the slice below is unguarded
and panics when the span leaves the file), decode the raw bytes, and
for tag 330 walk every sub-directory chain in the decoded offset order,
appending the discovered directories to the flat list. -/
def tagDataLoop (file : List Nat) (info : Info) :
    List (Nat × Tag) → List Ifd → Nat → RunRes (List (Nat × Tag) × List Ifd)
  | _, _, 0 => .fuelOut
  | [], ifdList, _ + 1 => .ok ([], ifdList)
  | (tagNum, tagInfo) :: rest, ifdList, fuel + 1 => do
    let typeSize := tagInfo.datatype.element_size_in_bytes
    let pos := tagInfo.offset.getD tagInfo.datapos
    let byteCount := tagInfo.count * typeSize
    let _logged := check_offset info.size pos byteCount
    let rawData ← liftPanic (slicePanic file pos (pos + byteCount))
    let data := Data.new rawData tagInfo.datatype info.endian tagInfo.count
    let (tagInfo2, ifdList2) ←
      match tagNum == 330, data with
      | true, Data.Long subIfdOffsets => do
        let l ← offsetsChain file info subIfdOffsets ifdList fuel
        pure ({ tagInfo with data := data, ifds := some () }, l)
      | true, _ => pure ({ tagInfo with data := data, ifds := some () }, ifdList)
      | false, _ => pure ({ tagInfo with data := data }, ifdList)
    let (rest2, ifdList3) ← tagDataLoop file info rest ifdList2 fuel
    pure ((tagNum, tagInfo2) :: rest2, ifdList3)

/-- The `for … in sub_ifd_offsets` loop of `read_ifd_tag_data`: run a
directory chain from each listed offset, in list order. -/
def offsetsChain (file : List Nat) (info : Info) :
    List Nat → List Ifd → Nat → RunRes (List Ifd)
  | _, _, 0 => .fuelOut
  | [], ifdList, _ + 1 => .ok ifdList
  | o :: os, ifdList, fuel + 1 => do
    let l ← ifdChain file info o ifdList fuel
    offsetsChain file info os l fuel

/-- The `while next_ifd > 0 { next_ifd = read_ifd(…).unwrap() }` loop
(`tiff.rs` 83-85 and 257-259): `read_ifd` returning `None` makes the
`unwrap` panic. -/
def ifdChain (file : List Nat) (info : Info) :
    Nat → List Ifd → Nat → RunRes (List Ifd)
  | _, _, 0 => .fuelOut
  | next, ifdList, fuel + 1 =>
    if next > 0 then
      match readIfd file info next ifdList fuel with
      | .ok (some nxt, l) => ifdChain file info nxt l fuel
      | .ok (none, _) => .panic
      | .err e => .err e
      | .panic => .panic
      | .fuelOut => .fuelOut
    else .ok ifdList

end

/-- `read_tiff` (`tiff.rs` 30-89).  Note the `header[4]` in
`let big_tiff = header[2] == 0x2B && header[4] == 0x08` — `header` is
the 4-byte vector `file[0..4]`, so index 4 is out of range whenever the
short-circuiting left side holds. -/
def readTiff (file : List Nat) (fuel : Nat) : RunRes (Info × List Ifd) := do
  let file_size := file.length
  let header ← liftPanic (slicePanic file 0 4)
  if header = [0x49, 0x49, 0x2a, 0x00] ∨ header = [0x4D, 0x4D, 0x00, 0x2a] ∨
      header = [0x49, 0x49, 0x2b, 0x00] ∨ header = [0x4D, 0x4D, 0x00, 0x2b] then do
    let endian := if header.getD 0 0 = 0x4D ∧ header.getD 1 0 = 0x4D
      then Endian.Big else Endian.Little
    let bigTiff ←
      if header.getD 2 0 = 0x2B then do
        let b4 ← liftPanic header[4]?
        pure (decide (b4 = 0x08))
      else pure false
    let firstIfd ←
      if bigTiff then do
        let b ← liftPanic (slicePanic file 4 6)
        let offsetSize := orderRead endian b 2
        if offsetSize = 8 then do
          let b2 ← liftPanic (slicePanic file 8 12)
          pure (orderRead endian b2 4)
        else RunRes.err "Unexpected big tiff offset size"
      else do
        let b ← liftPanic (slicePanic file 4 8)
        pure (orderRead endian b 4)
    let info : Info :=
      { endian := endian, big_tiff := bigTiff, first_ifd := firstIfd,
        header := header, size := file_size }
    let ifdList ← ifdChain file info firstIfd [] fuel
    pure (info, ifdList)
  else RunRes.err "The header is not valid"

end Skora

namespace Skora

/-- The first loop of `copy_tag_data` (`tiff.rs` 577-594): walk the
offset list (`idx_list[olidx]` is always `olidx`), look up the paired
length (a panicking index when the length list is shorter), and for
every pair accepted by `check_offset` append the source byte range to
the image. -/
def copyLoop (source : List Nat) (lengths : List Nat) (source_length : Nat) :
    List Nat → Nat → List Nat → Option (List Nat)
  | [], _, image => some image
  | offset :: rest, olidx, image => do
    let length ← lengths[olidx]?
    let image2 ←
      if check_offset source_length offset length then do
        let source_data ← slicePanic source offset (offset + length)
        pure (image ++ source_data)
      else pure image
    copyLoop source lengths source_length rest (olidx + 1) image2

/-- The second loop of `copy_tag_data` (`tiff.rs` 596-600):
`for index in 0..lengths.len(): if index > 0 { dest[index] =
dest[index-1] + lengths[index-1] }`, with panicking reads and writes. -/
def destGo (lengths : List Nat) : Nat → Nat → List Nat → Option (List Nat)
  | 0, _, dest => some dest
  | remaining + 1, index, dest =>
    if index > 0 then do
      let prev ← dest[index - 1]?
      let len ← lengths[index - 1]?
      let dest2 ← setPanic dest index (prev + len)
      destGo lengths remaining (index + 1) dest2
    else destGo lengths remaining (index + 1) dest

/-- `copy_tag_data` (`tiff.rs` 558-603).  A length/offset list mismatch
is only logged.  `dest_offsets[0] = image.len()` is an out-of-range
write (panic) when `offsets` is empty. -/
def copyTagData (image : List Nat) (source : List Nat) (offsets lengths : List Nat)
    (source_length : Nat) : Option (List Nat × List Nat) := do
  let destInit ← setPanic (List.replicate offsets.length 0) 0 image.length
  let image2 ← copyLoop source lengths source_length offsets 0 image
  let dest ← destGo lengths lengths.length 0 destInit
  pure (image2, dest)

/-- `image[ifd_pointer + idx] = *byte` for each byte (`tiff.rs`
524-526), a sequence of panicking index assignments. -/
def writeAt (l : List Nat) (i : Nat) (bytes : List Nat) : Option (List Nat) :=
  match bytes with
  | [] => some l
  | b :: rest => do
    let l2 ← setPanic l i b
    writeAt l2 (i + 1) rest

/-- The per-tag loop of `copy_ifd` (`tiff.rs` 377-502), iterating the
tag map in ascending tag order.  For the pointer tags
273/288/324/513/519/520/521 the paired byte-count list is fetched from
the paired tag (279/289/325/514; a missing pair or a non-`Long` decoded
value is a `panic!`), the referenced ranges are copied via
`copy_tag_data`, and the tag is rewritten to `Long` destination
offsets.  Values longer than the slot are appended out-of-line after
word alignment. -/
def copyIfdLoop (source : List Nat) (ifd : Ifd) (tagDataLength : Nat) :
    List (Nat × Tag) → List Nat → List Nat → Option (List Nat × List Nat)
  | [], image, ifdRecord => some (image, ifdRecord)
  | (tagNum, tagInfo) :: rest, image, ifdRecord => do
    let data := tagInfo.data
    let count := tagInfo.count
    let (image2, data2, datatype2) ←
      if tagNum = 273 ∨ tagNum = 288 ∨ tagNum = 324 ∨ tagNum = 513 ∨
          tagNum = 519 ∨ tagNum = 520 ∨ tagNum = 521 then do
        let refLengths ←
          if tagNum = 273 then do
            let t ← btreeFind ifd.tags 279
            match t.data with
            | Data.Long val => some val
            | _ => none
          else if tagNum = 288 then do
            let t ← btreeFind ifd.tags 289
            match t.data with
            | Data.Long val => some val
            | _ => none
          else if tagNum = 324 then do
            let t ← btreeFind ifd.tags 325
            match t.data with
            | Data.Long val => some val
            | _ => none
          else if tagNum = 513 then do
            let t ← btreeFind ifd.tags 514
            match t.data with
            | Data.Long val => some val
            | _ => none
          else some (List.replicate count tagInfo.datatype.element_size_in_bytes)
        let offsetsList ←
          match data with
          | Data.Long val => some val
          | _ => none
        let (image2, dests) ← copyTagData image source offsetsList refLengths ifd.size
        pure (image2, Data.Long dests, DataType.Long)
      else pure (image, data, tagInfo.datatype)
    let dataOutput := data2.to_vec_u8 ifd.endian
    let tagRecord := orderWrite16 ifd.endian [] tagNum
    let tagRecord2 := orderWrite16 ifd.endian tagRecord datatype2.type_tiff_id
    let tagRecord3 ←
      if tagDataLength = 4 then some (orderWrite32 ifd.endian tagRecord2 count)
      else if tagDataLength = 8 then some (orderWrite64 ifd.endian tagRecord2 count)
      else none
    if dataOutput.length ≤ tagDataLength then
      let tagRecord4 := tagRecord3 ++ dataOutput ++
        List.replicate (tagDataLength - dataOutput.length) 0
      copyIfdLoop source ifd tagDataLength rest image2 (ifdRecord ++ tagRecord4)
    else do
      let image3 := if image2.length % 2 = 1 then image2 ++ [0] else image2
      let tagRecord4 ←
        if tagDataLength = 4 then some (orderWrite32 ifd.endian tagRecord3 image3.length)
        else if tagDataLength = 8 then some (orderWrite64 ifd.endian tagRecord3 image3.length)
        else none
      copyIfdLoop source ifd tagDataLength rest (image3 ++ dataOutput)
        (ifdRecord ++ tagRecord4)

/-- `copy_ifd` (`tiff.rs` 364-542): emit the entry count and all tag
records, pad to a word boundary, write the directory position back at
`ifd_pointer`, append the directory record and a zero next-directory
pointer. -/
def copyIfd (image : List Nat) (ifd : Ifd) (ifdPointer : Nat) (source : List Nat) :
    Option (List Nat) := do
  let tagDataLength := if ifd.big_tiff then 8 else 4
  let ifdRecord :=
    if ifd.big_tiff then orderWrite64 ifd.endian [] ifd.tags.length
    else orderWrite16 ifd.endian [] ifd.tags.length
  let (image2, ifdRecord2) ← copyIfdLoop source ifd tagDataLength ifd.tags image ifdRecord
  let image3 := if image2.length % 2 = 1 then image2 ++ [0] else image2
  let pos := image3.length
  let posBytes ←
    if tagDataLength = 4 then some (bytes32 ifd.endian pos)
    else if tagDataLength = 8 then some (bytes64 ifd.endian pos)
    else none
  let image4 ← writeAt image3 ifdPointer posBytes
  let temp ←
    if tagDataLength = 4 then some (bytes32 ifd.endian 0)
    else if tagDataLength = 8 then some (bytes64 ifd.endian 0)
    else none
  pure (image4 ++ ifdRecord2 ++ temp)

/-- One iteration of the `get_layers` loop (`tiff.rs` 309-351): build
the fresh header for the directory's endianness/variant, record the
placeholder-pointer position, and run `copy_ifd`. -/
def synthLayer (source : List Nat) (ifd : Ifd) : Option (List Nat) :=
  let header :=
    if ifd.big_tiff then
      orderWrite64 ifd.endian (orderWrite16 ifd.endian (orderWrite16 ifd.endian
        (orderWrite16 ifd.endian [0x4D, 0x4D] 0x2B) 8) 0) 0
    else
      orderWrite32 ifd.endian (orderWrite16 ifd.endian [0x49, 0x49] 0x2A) 0
  let ifdPointer := if ifd.big_tiff then header.length - 8 else header.length - 4
  copyIfd header ifd ifdPointer source

/-- `get_layers` (`tiff.rs` 304-353): one synthesized image per input
directory, in input order; a panic while synthesizing any directory
aborts the whole call. -/
def getLayers (ifds : List Ifd) (source : List Nat) : Option (List (List Nat)) :=
  ifds.mapM (fun ifd => synthLayer source ifd)

end Skora

namespace Skora

/-- The `DataType` a `Data` value decodes from (the claim's "datatype of
v"): the inverse of the per-variant arm `Data::new` selects. -/
def Data.dataTypeOf : Data → DataType
  | .Byte _ => .Byte
  | .Ascii _ => .Ascii
  | .Short _ => .Short
  | .Long _ => .Long
  | .Rational _ => .Rational

/-- The element count of a `Data` value (the claim's "element count of
v"): number of entries for numeric variants, pairs for rationals, bytes
for ASCII. -/
def Data.elemCount : Data → Nat
  | .Byte l => l.length
  | .Ascii s => (strBytes s).length
  | .Short l => l.length
  | .Long l => l.length
  | .Rational l => l.length

/-- Representability of a `Data` value as the Rust types store it:
`u16`/`u32` elements in range, and rational triples whose denominator
is nonzero and whose first component is the quotient the decoder
recomputes (the claim's hypotheses). -/
def Data.WellFormed : Data → Prop
  | .Byte _ => True
  | .Ascii _ => True
  | .Short l => ∀ x ∈ l, x < 2 ^ 16
  | .Long l => ∀ x ∈ l, x < 2 ^ 32
  | .Rational l => ∀ t ∈ l, t.2.1 < 2 ^ 32 ∧ t.2.2 < 2 ^ 32 ∧ t.2.2 ≠ 0 ∧
      t.1 = (t.2.1 : Rat) / (t.2.2 : Rat)

end Skora

namespace Skora

@[simp]
theorem liftPanic_none {α : Type} : liftPanic (α := α) none = RunRes.panic := rfl

@[simp]
theorem liftPanic_some {α : Type} (a : α) : liftPanic (some a) = RunRes.ok a := rfl

@[simp]
theorem RunRes.bind_eq {α β : Type} (x : RunRes α) (f : α → RunRes β) :
    x >>= f = RunRes.bind x f := rfl

@[simp]
theorem RunRes.pure_eq {α : Type} (a : α) : (pure a : RunRes α) = RunRes.ok a := rfl

@[simp]
theorem RunRes.ok_bind {α β : Type} (a : α) (f : α → RunRes β) :
    RunRes.bind (.ok a) f = f a := rfl

@[simp]
theorem RunRes.err_bind {α β : Type} (e : String) (f : α → RunRes β) :
    RunRes.bind (.err e) f = .err e := rfl

@[simp]
theorem RunRes.panic_bind {α β : Type} (f : α → RunRes β) :
    RunRes.bind .panic f = .panic := rfl

@[simp]
theorem RunRes.fuelOut_bind {α β : Type} (f : α → RunRes β) :
    RunRes.bind .fuelOut f = .fuelOut := rfl

theorem setPanic_some_iff (l : List Nat) (i v : Nat) (l' : List Nat) :
    setPanic l i v = some l' ↔ i < l.length ∧ l' = l.set i v := by
  unfold setPanic
  split <;> simp_all
  exact eq_comm

theorem setPanic_length {l : List Nat} {i v : Nat} {l' : List Nat}
    (h : setPanic l i v = some l') : l'.length = l.length := by
  rw [setPanic_some_iff] at h
  rw [h.2, List.length_set]

theorem slicePanic_some_iff (l : List Nat) (s e : Nat) (r : List Nat) :
    slicePanic l s e = some r ↔ (s ≤ e ∧ e ≤ l.length) ∧ r = (l.drop s).take (e - s) := by
  unfold slicePanic
  split <;> simp_all
  exact eq_comm

/-- C5: `check_offset(source_length, offset, length)` is true iff
`offset ≥ 8` and `offset + length ≤ source_length`; in particular it is
false whenever `offset < 8` or `offset + length > source_length`. -/
theorem check_offset_iff :
    ∀ source_length offset length : Nat,
      (check_offset source_length offset length = true ↔
        8 ≤ offset ∧ offset + length ≤ source_length) ∧
      ((offset < 8 ∨ source_length < offset + length) →
        check_offset source_length offset length = false) := by
  intro sl off len
  constructor
  · simp [check_offset]
  · intro h
    simp only [check_offset, Bool.and_eq_false_iff]
    rcases h with h | h
    · exact Or.inl (decide_eq_false (by omega))
    · exact Or.inr (decide_eq_false (by omega))

/-- Witness for C5 at concrete inputs. -/
theorem check_offset_iff_witness :
    (check_offset 20 8 12 = true ↔ 8 ≤ 8 ∧ 8 + 12 ≤ 20) ∧ check_offset 20 7 1 = false :=
  ⟨(check_offset_iff 20 8 12).1, (check_offset_iff 20 7 1).2 (Or.inl (by decide))⟩

theorem destGo_length (lengths : List Nat) :
    ∀ k i (d d' : List Nat), destGo lengths k i d = some d' → d'.length = d.length := by
  intro k
  induction k with
  | zero =>
    intro i d d' h
    simp only [destGo] at h
    cases h
    rfl
  | succ n ih =>
    intro i d d' h
    simp only [destGo] at h
    split at h
    · rcases Option.bind_eq_some.mp h with ⟨prev, hprev, h⟩
      rcases Option.bind_eq_some.mp h with ⟨len, hlen, h⟩
      rcases Option.bind_eq_some.mp h with ⟨d2, hd2, h⟩
      have := setPanic_length hd2
      have := ih _ _ _ h
      omega
    · exact ih _ _ _ h

/-- C10: `copy_tag_data` panics on an empty offsets list — its first
write `dest_offsets[0] = image.len()` indexes a vector whose length is
`offsets.len()` — while for a non-empty offsets list that index-0 write
is in range, and whenever the function returns, the returned
destination-offset list has exactly `offsets.len()` elements. -/
theorem copyTagData_nonempty_precondition :
    ∀ image source lengths source_length,
      copyTagData image source [] lengths source_length = none ∧
      ∀ offsets : List Nat, offsets ≠ [] →
        (setPanic (List.replicate offsets.length 0) 0 image.length).isSome = true ∧
        ∀ image2 dest, copyTagData image source offsets lengths source_length =
          some (image2, dest) → dest.length = offsets.length := by
  intro image source lengths source_length
  constructor
  · simp [copyTagData, setPanic]
  · intro offsets hne
    have hpos : 0 < offsets.length := List.length_pos.mpr hne
    constructor
    · simp [setPanic, hpos]
    · intro image2 dest h
      unfold copyTagData at h
      rcases Option.bind_eq_some.mp h with ⟨d0, hd0, h⟩
      rcases Option.bind_eq_some.mp h with ⟨img, himg, h⟩
      rcases Option.bind_eq_some.mp h with ⟨d1, hd1, h⟩
      have h5 : img = image2 ∧ d1 = dest := by simpa using h
      obtain ⟨rfl, rfl⟩ := h5
      have h1 := setPanic_length hd0
      have h2 := destGo_length lengths _ _ _ _ hd1
      simp only [List.length_replicate] at h1
      omega

/-- Witness for C10 at concrete inputs. -/
theorem copyTagData_nonempty_precondition_witness :
    copyTagData [1, 2, 3] [0, 0, 0, 0, 0, 0, 0, 0, 9, 9] [] [] 10 = none ∧
    ((setPanic (List.replicate ([8, 11] : List Nat).length 0) 0
        ([1] : List Nat).length).isSome = true ∧
      ∀ image2 dest,
        copyTagData [1] [0, 0, 0, 0, 0, 0, 0, 0, 9, 9] [8, 11] [2, 0] 10 =
          some (image2, dest) → dest.length = ([8, 11] : List Nat).length) :=
  ⟨(copyTagData_nonempty_precondition [1, 2, 3] [0, 0, 0, 0, 0, 0, 0, 0, 9, 9] [] 10).1,
    (copyTagData_nonempty_precondition [1] [0, 0, 0, 0, 0, 0, 0, 0, 9, 9] [2, 0] 10).2
      [8, 11] (by decide)⟩

end Skora

namespace Skora

/-- C6: for every directory entry parsed by `read_ifd`, the tag is
classified out-of-line (`Tag.offset = Some(slot value)`) iff
`count × element_size` strictly exceeds the inline slot width (4 bytes
classic, 8 bytes big-TIFF): at or below the width the entry is read as
inline (`Tag.offset = None`), and above it `Tag.offset` holds exactly
the value read from the entry's value slot. -/
theorem parseEntry_offset_classification :
    ∀ file endian bigTiff off tagId ti off',
      parseEntry file endian bigTiff off = some ((tagId, ti), off') →
      ((ti.offset.isSome = true) ↔
        ti.count * ti.datatype.element_size_in_bytes > (if bigTiff then 8 else 4)) ∧
      (ti.count * ti.datatype.element_size_in_bytes > (if bigTiff then 8 else 4) →
        ti.offset = some (orderRead endian
          ((file.drop (off' - (if bigTiff then 8 else 4))).take (if bigTiff then 8 else 4))
          (if bigTiff then 8 else 4))) ∧
      (ti.count * ti.datatype.element_size_in_bytes ≤ (if bigTiff then 8 else 4) →
        ti.offset = none) := by
  intro file endian bigTiff off tagId ti off' h
  unfold parseEntry at h
  rcases Option.bind_eq_some.mp h with ⟨⟨tag, dt, count, data_tmp, data, off2, dl⟩, hbr, hres⟩
  simp only [Option.pure_def, Option.some_inj, Prod.mk.injEq] at hres
  obtain ⟨⟨rfl, rfl⟩, rfl⟩ := hres
  cases bigTiff with
  | false =>
    simp only [Bool.false_eq_true, if_false] at hbr ⊢
    rcases Option.bind_eq_some.mp hbr with ⟨b1, hb1, hbr⟩
    rcases Option.bind_eq_some.mp hbr with ⟨b2, hb2, hbr⟩
    rcases Option.bind_eq_some.mp hbr with ⟨dt2, hdt2, hbr⟩
    rcases Option.bind_eq_some.mp hbr with ⟨b3, hb3, hbr⟩
    rcases Option.bind_eq_some.mp hbr with ⟨b4, hb4, hbr⟩
    simp only [Option.pure_def, Option.some_inj, Prod.mk.injEq] at hbr
    obtain ⟨rfl, rfl, rfl, rfl, rfl, rfl, rfl⟩ := hbr
    have hb4' : b4 = (file.drop (off + 8)).take 4 := by
      have := (slicePanic_some_iff _ _ _ _).mp hb4
      have harith : off + 12 - (off + 8) = 4 := by omega
      rw [this.2, harith]
    have harith2 : off + 12 - 4 = off + 8 := by omega
    refine ⟨?_, ?_, ?_⟩
    · by_cases hc : orderRead endian b3 4 * dt2.element_size_in_bytes > 4 <;>
        simp [hc, Nat.not_lt.mp]
    · intro hc
      simp only [gt_iff_lt] at hc
      simp [hc, harith2, hb4']
    · intro hc
      have : ¬ (4 < orderRead endian b3 4 * dt2.element_size_in_bytes) := by omega
      simp [this]
  | true =>
    simp only [if_true] at hbr ⊢
    rcases Option.bind_eq_some.mp hbr with ⟨b1, hb1, hbr⟩
    rcases Option.bind_eq_some.mp hbr with ⟨b2, hb2, hbr⟩
    rcases Option.bind_eq_some.mp hbr with ⟨dt2, hdt2, hbr⟩
    rcases Option.bind_eq_some.mp hbr with ⟨b3, hb3, hbr⟩
    rcases Option.bind_eq_some.mp hbr with ⟨b4, hb4, hbr⟩
    simp only [Option.pure_def, Option.some_inj, Prod.mk.injEq] at hbr
    obtain ⟨rfl, rfl, rfl, rfl, rfl, rfl, rfl⟩ := hbr
    have hb4' : b4 = (file.drop (off + 12)).take 8 := by
      have := (slicePanic_some_iff _ _ _ _).mp hb4
      have harith : off + 20 - (off + 12) = 8 := by omega
      rw [this.2, harith]
    have harith2 : off + 20 - 8 = off + 12 := by omega
    refine ⟨?_, ?_, ?_⟩
    · by_cases hc : orderRead endian b3 8 * dt2.element_size_in_bytes > 8 <;>
        simp [hc, Nat.not_lt.mp]
    · intro hc
      simp only [gt_iff_lt] at hc
      simp [hc, harith2, hb4']
    · intro hc
      have : ¬ (8 < orderRead endian b3 8 * dt2.element_size_in_bytes) := by omega
      simp [this]

/-- Witness for C6 at a concrete classic little-endian entry: tag 256,
type Long, count 1 — `count × element_size = 4` equals the slot width,
so the entry is inline. -/
theorem parseEntry_offset_classification_witness :
    Tag.offset
      { count := 1, data := Data.Byte [42, 0, 0, 0, 0, 0, 0, 0], datapos := 8,
        datatype := DataType.Long, ifds := none, offset := none } = none :=
  (parseEntry_offset_classification [0, 1, 4, 0, 1, 0, 0, 0, 42, 0, 0, 0] Endian.Little
    false 0 256
    { count := 1, data := Data.Byte [42, 0, 0, 0, 0, 0, 0, 0], datapos := 8,
      datatype := DataType.Long, ifds := none, offset := none }
    12 (by decide)).2.2 (by decide)

end Skora

namespace Skora

/-- C3 (code bug witnessed on the code): `read_tiff` panics on the
little-endian big-TIFF magic `49 49 2B 00` (the `header[4]` index into
the 4-byte header vector is out of range) and misreports the big-endian
big-TIFF magic `4D 4D 00 2B` as classic (`big_tiff = false`, since
`header[2]` is `0x00`, not `0x2B`); a non-magic prefix does return the
invalid-header error, and a classic magic is handled correctly. -/
theorem readTiff_bigtiff_header_bug :
    readTiff [0x49, 0x49, 0x2B, 0x00] 10 = RunRes.panic ∧
    readTiff [0x4D, 0x4D, 0x00, 0x2B, 0, 0, 0, 0] 10 =
      RunRes.ok
        ({ endian := Endian.Big, big_tiff := false, first_ifd := 0,
           header := [0x4D, 0x4D, 0x00, 0x2B], size := 8 }, []) ∧
    readTiff [0, 1, 2, 3] 10 = RunRes.err "The header is not valid" ∧
    readTiff [0x49, 0x49, 0x2A, 0x00, 0, 0, 0, 0] 10 =
      RunRes.ok
        ({ endian := Endian.Little, big_tiff := false, first_ifd := 0,
           header := [0x49, 0x49, 0x2A, 0x00], size := 8 }, []) :=
  ⟨by decide, by decide, by decide, by decide⟩

/-- C4 (code bug witnessed on the code): a classic little-endian file
whose single tag declares count 2 of type Long at out-of-line offset
256 in a 26-byte file — the span (256, 8) fails `check_offset`, which
only logs, and the following unguarded slice `file[256..264]` panics,
so resolution does crash on an out-of-range span instead of leaving
best-effort data and continuing. -/
theorem readTiff_outOfRange_span_panics :
    readTiff ([0x49, 0x49, 0x2A, 0x00, 8, 0, 0, 0] ++ [1, 0] ++
      [0, 1, 4, 0, 2, 0, 0, 0, 0, 1, 0, 0] ++ [0, 0, 0, 0]) 10 = RunRes.panic ∧
    check_offset 26 256 8 = false :=
  ⟨by decide, by decide⟩

/-- C9: `read_tiff` is only total on buffers long enough for the header
fields it reads: fewer than 4 bytes make the slice `file[0..4]` panic,
and 4-to-7-byte inputs starting with a valid classic magic make the
first-directory-offset slice `file[4..8]` panic — neither is rejected
through the returned error value. -/
theorem readTiff_short_input_panics :
    ∀ (file : List Nat) (fuel : Nat),
      (file.length < 4 → readTiff file fuel = RunRes.panic) ∧
      (4 ≤ file.length → file.length < 8 →
        (file.take 4 = [0x49, 0x49, 0x2A, 0x00] ∨
          file.take 4 = [0x4D, 0x4D, 0x00, 0x2A]) →
        readTiff file fuel = RunRes.panic) := by
  intro file fuel
  constructor
  · intro h
    have hs : slicePanic file 0 4 = none := by
      simp only [slicePanic, ite_eq_right_iff]
      omega
    simp [readTiff, hs]
  · intro h4 h8 hm
    have hs : slicePanic file 0 4 = some (file.take 4) := by
      simp [slicePanic, h4]
    have hs2 : slicePanic file 4 8 = none := by
      simp only [slicePanic, ite_eq_right_iff]
      omega
    rcases hm with hm | hm <;>
      simp [readTiff, hs, hs2, hm]

/-- Witness for C9 at concrete inputs. -/
theorem readTiff_short_input_panics_witness :
    readTiff [0, 0, 0] 3 = RunRes.panic ∧
    readTiff [0x49, 0x49, 0x2A, 0x00, 7] 3 = RunRes.panic :=
  ⟨(readTiff_short_input_panics [0, 0, 0] 3).1 (by decide),
   (readTiff_short_input_panics [0x49, 0x49, 0x2A, 0x00, 7] 3).2 (by decide) (by decide)
     (Or.inl (by decide))⟩

end Skora

namespace Skora

/-- C8 counterexample: a directory whose strip-offset tag 273 lacks the
paired byte-count tag 279 makes `copy_ifd` panic (`ifd.tags[&279]` on a
missing key), and the panic aborts `get_layers` for the whole list —
the well-formed second directory, which synthesizes fine on its own,
gets no output buffer either. -/
theorem getLayers_abort_counterexample :
    getLayers
      [{ endian := .Little, big_tiff := false, offset := 8, size := 14, tag_count := 1,
         tags := [(273,
           { count := 1, data := Data.Long [8], datapos := 10, datatype := .Long,
             ifds := none, offset := none })] },
       { endian := .Little, big_tiff := false, offset := 8, size := 14, tag_count := 0,
         tags := [] }] [1, 2, 3] = none ∧
    getLayers
      [{ endian := .Little, big_tiff := false, offset := 8, size := 14, tag_count := 0,
         tags := [] }] [1, 2, 3] =
      some [[73, 73, 42, 0, 8, 0, 0, 0, 0, 0, 0, 0, 0, 0]] :=
  ⟨by decide, by decide⟩

/-- C8 (amended): when synthesizing one directory panics — as it does
when a pointer tag's paired byte-count tag is absent or either decoded
value is not the `Long` variant — the panic aborts `get_layers` for the
entire input list: no output buffer is produced for any directory. -/
theorem getLayers_panic_aborts_all :
    ∀ (pre post : List Ifd) (bad : Ifd) (source : List Nat),
      synthLayer source bad = none →
      getLayers (pre ++ bad :: post) source = none := by
  intro pre post bad source hbad
  unfold getLayers
  rw [List.mapM_append]
  rw [List.mapM_cons]
  rw [hbad]
  have hmid : ((none : Option (List Nat)).bind fun x =>
      (List.mapM (fun ifd => synthLayer source ifd) post).bind fun xs =>
        pure (x :: xs)) = none := rfl
  cases hpre : List.mapM (fun ifd => synthLayer source ifd) pre <;> rfl

/-- Witness for the amended C8 at concrete inputs. -/
theorem getLayers_panic_aborts_all_witness :
    getLayers
      [{ endian := .Little, big_tiff := false, offset := 8, size := 14, tag_count := 0,
         tags := [] },
       { endian := .Little, big_tiff := false, offset := 8, size := 14, tag_count := 1,
         tags := [(273,
           { count := 1, data := Data.Long [8], datapos := 10, datatype := .Long,
             ifds := none, offset := none })] }] [1, 2, 3] = none :=
  getLayers_panic_aborts_all
    [{ endian := .Little, big_tiff := false, offset := 8, size := 14, tag_count := 0,
       tags := [] }] []
    { endian := .Little, big_tiff := false, offset := 8, size := 14, tag_count := 1,
      tags := [(273,
        { count := 1, data := Data.Long [8], datapos := 10, datatype := .Long,
          ifds := none, offset := none })] } [1, 2, 3] (by decide)

end Skora

namespace Skora

theorem getElem?_eq_some_getD {l : List Nat} {i : Nat} (h : i < l.length) :
    l[i]? = some (l.getD i 0) := by
  rw [List.getElem?_eq_getElem h, List.getD_eq_getElem?_getD, List.getElem?_eq_getElem h]
  rfl

theorem map_getD_range (l : List Nat) :
    ∀ i, i ≤ l.length → (List.range i).map (fun j => l.getD j 0) = l.take i := by
  induction l with
  | nil =>
    intro i h
    have hi0 : i = 0 := by simpa using h
    subst hi0
    simp
  | cons x xs ih =>
    intro i h
    cases i with
    | zero => simp
    | succ k =>
      rw [List.range_succ_eq_map, List.map_cons, List.map_map]
      simp only [List.getD_cons_zero, Function.comp_def, List.getD_cons_succ,
        List.take_succ_cons]
      rw [ih k (by simpa using h)]

theorem flatten_drop_blocks (blocks : List (List Nat)) :
    ∀ i, i ≤ blocks.length →
      blocks.flatten.drop (((blocks.take i).map List.length).sum) =
        (blocks.drop i).flatten := by
  induction blocks with
  | nil =>
    intro i h
    have hi0 : i = 0 := by simpa using h
    subst hi0
    simp
  | cons b bs ih =>
    intro i h
    cases i with
    | zero => simp
    | succ k =>
      simp only [List.take_succ_cons, List.map_cons, List.sum_cons, List.flatten_cons,
        List.drop_succ_cons]
      rw [← List.drop_drop, List.drop_left]
      exact ih k (by simpa using h)

theorem flatten_block_at (blocks : List (List Nat)) (i : Nat) (hi : i < blocks.length) :
    (blocks.flatten.drop (((blocks.take i).map List.length).sum)).take
        (blocks.getD i []).length = blocks.getD i [] := by
  rw [flatten_drop_blocks blocks i (le_of_lt hi)]
  rw [List.drop_eq_getElem_cons hi, List.flatten_cons]
  have : blocks.getD i [] = blocks[i] := by
    rw [List.getD_eq_getElem?_getD, List.getElem?_eq_getElem hi]
    rfl
  rw [this, List.take_left]

theorem copyLoop_all_valid (source lengths : List Nat) (source_length : Nat)
    (hsl : source_length = source.length) :
    ∀ (offs : List Nat) (idx : Nat) (image : List Nat),
      idx + offs.length ≤ lengths.length →
      (∀ j, j < offs.length →
        check_offset source_length (offs.getD j 0) (lengths.getD (idx + j) 0) = true) →
      copyLoop source lengths source_length offs idx image =
        some (image ++ ((List.range offs.length).map fun j =>
          (source.drop (offs.getD j 0)).take (lengths.getD (idx + j) 0)).flatten) := by
  intro offs
  induction offs with
  | nil =>
    intro idx image _ _
    simp [copyLoop]
  | cons off rest ih =>
    intro idx image hlen hchk
    have h0 := hchk 0 (by simp)
    simp only [List.getD_cons_zero, Nat.add_zero] at h0
    have hck := (check_offset_iff source_length (off) (lengths.getD idx 0)).1.mp h0
    have hidx : idx < lengths.length := by
      simp only [List.length_cons] at hlen
      omega
    have hget : lengths[idx]? = some (lengths.getD idx 0) := getElem?_eq_some_getD hidx
    have hslice : slicePanic source off (off + lengths.getD idx 0) =
        some ((source.drop off).take (lengths.getD idx 0)) := by
      rw [slicePanic_some_iff]
      refine ⟨⟨by omega, by omega⟩, by rw [Nat.add_sub_cancel_left]⟩
    simp only [copyLoop, hget, Option.bind_eq_bind, Option.pure_def, Option.some_bind, h0,
      if_true, hslice]
    rw [ih (idx + 1) (image ++ (source.drop off).take (lengths.getD idx 0))
      (by simp only [List.length_cons] at hlen; omega)
      (fun j hj => by
        have := hchk (j + 1) (by simpa using Nat.succ_lt_succ hj)
        simpa [Nat.add_assoc, Nat.add_comm 1 j] using this)]
    simp only [List.length_cons]
    rw [List.range_succ_eq_map, List.map_cons, List.map_map]
    simp only [List.getD_cons_zero, Nat.add_zero, List.flatten_cons, List.append_assoc,
      Function.comp_def, List.getD_cons_succ]
    have harith : ∀ j : Nat, idx + 1 + j = idx + (j + 1) := fun j => by omega
    simp only [Nat.succ_eq_add_one, harith]

end Skora

namespace Skora

theorem sum_take_succ_getD (l : List Nat) :
    ∀ i, i < l.length → (l.take (i + 1)).sum = (l.take i).sum + l.getD i 0 := by
  induction l with
  | nil => intro i h; simp at h
  | cons x xs ih =>
    intro i h
    cases i with
    | zero => simp
    | succ j =>
      simp only [List.take_succ_cons, List.sum_cons, List.getD_cons_succ]
      rw [ih j (by simpa using h)]
      omega

theorem getD_map_range {β : Type} (d : β) (f : Nat → β) (n i : Nat) (h : i < n) :
    ((List.range n).map f).getD i d = f i := by
  have h2 : i < ((List.range n).map f).length := by simpa using h
  rw [List.getD_eq_getElem?_getD, List.getElem?_eq_getElem h2]
  simp

theorem destGo_closed (lengths : List Nat) (n : Nat) (base : Nat) (hn : lengths.length = n) :
    ∀ k index dest,
      index + k = n → 1 ≤ index →
      dest = (List.range n).map (fun i => if i < index then base + (lengths.take i).sum else 0) →
      destGo lengths k index dest =
        some ((List.range n).map (fun i => base + (lengths.take i).sum)) := by
  intro k
  induction k with
  | zero =>
    intro index dest h1 h2 h3
    have hin : index = n := by omega
    subst hin
    simp only [destGo]
    rw [h3]
    congr 1
    apply List.map_congr_left
    intro i hi
    rw [List.mem_range] at hi
    simp [hi]
  | succ m ih =>
    intro index dest h1 h2 h3
    have hidxn : index < n := by omega
    simp only [destGo]
    rw [if_pos (by omega : index > 0)]
    have hprev : dest[index - 1]? = some (base + (lengths.take (index - 1)).sum) := by
      rw [h3]
      have hlt : index - 1 < ((List.range n).map
          (fun i => if i < index then base + (lengths.take i).sum else 0)).length := by
        simpa using (by omega : index - 1 < n)
      rw [List.getElem?_eq_getElem hlt]
      simp only [List.getElem_map, List.getElem_range]
      rw [if_pos (by omega : index - 1 < index)]
    have hlen : lengths[index - 1]? = some (lengths.getD (index - 1) 0) :=
      getElem?_eq_some_getD (by omega)
    have hset : setPanic dest index (base + (lengths.take (index - 1)).sum +
        lengths.getD (index - 1) 0) = some (dest.set index (base +
        (lengths.take (index - 1)).sum + lengths.getD (index - 1) 0)) := by
      rw [setPanic_some_iff]
      exact ⟨by rw [h3]; simpa using hidxn, rfl⟩
    simp only [hprev, hlen, hset, Option.bind_eq_bind, Option.some_bind]
    rw [ih (index + 1) _ (by omega) (by omega) ?_]
    rw [h3]
    apply List.ext_getElem
    · simp
    · intro i hl hr
      simp only [List.length_set, List.length_map, List.length_range] at hl
      by_cases hii : i = index
      · subst hii
        rw [List.getElem_set_self (by simpa using hl)]
        simp only [List.getElem_map, List.getElem_range]
        rw [if_pos (by omega : i < i + 1)]
        have : (lengths.take i).sum = (lengths.take (i - 1)).sum + lengths.getD (i - 1) 0 := by
          have hi1 : i - 1 + 1 = i := by omega
          rw [← hi1, sum_take_succ_getD lengths (i - 1) (by omega)]
          simp [hi1]
        omega
      · rw [List.getElem_set_ne (by omega)]
        simp only [List.getElem_map, List.getElem_range]
        by_cases hlt2 : i < index
        · rw [if_pos hlt2, if_pos (by omega)]
        · rw [if_neg hlt2, if_neg (by omega)]

end Skora

namespace Skora

theorem destGo_from_zero (lengths : List Nat) (n base : Nat) (hn : lengths.length = n)
    (hne : lengths ≠ []) :
    destGo lengths lengths.length 0 ((List.replicate n 0).set 0 base) =
      some ((List.range n).map fun i => base + (lengths.take i).sum) := by
  subst hn
  obtain ⟨m, hm⟩ : ∃ m, lengths.length = m + 1 :=
    ⟨lengths.length - 1, by have := List.length_pos.mpr hne; omega⟩
  rw [hm]
  simp only [destGo]
  rw [if_neg (by omega)]
  simp only [Nat.zero_add]
  apply destGo_closed lengths (m + 1) base hm m 1 _ (by omega) (by omega)
  rw [List.replicate_succ, List.set_cons_zero, List.range_succ_eq_map, List.map_cons,
    List.map_map]
  have h1 : ∀ i : Nat, ¬ (i + 1 < 1) := fun i => by omega
  simp only [Function.comp_def, h1, if_false, if_pos Nat.zero_lt_one, List.take_zero,
    List.sum_nil, Nat.add_zero, Nat.lt_irrefl]
  rw [List.map_const']
  simp

/-- C1: for every call of `copy_tag_data` with non-empty parallel
offset/length lists in which every pair passes `check_offset`, the
function appends to `image` exactly the listed source byte ranges,
concatenated in list order with no gaps, and returns destination
offsets `d` with `d[0]` the entry length of `image`,
`d[i] = d[i-1] + lengths[i-1]`, and each `d[i]` the position in the
output buffer where the `i`-th copied range begins. -/
theorem copyTagData_copies_ranges :
    ∀ (image source offsets lengths : List Nat) (source_length : Nat),
      offsets ≠ [] →
      offsets.length = lengths.length →
      source_length = source.length →
      (∀ i, i < offsets.length →
        check_offset source_length (offsets.getD i 0) (lengths.getD i 0) = true) →
      ∃ dest : List Nat,
        copyTagData image source offsets lengths source_length =
          some (image ++ ((List.range offsets.length).map fun j =>
            (source.drop (offsets.getD j 0)).take (lengths.getD j 0)).flatten, dest) ∧
        dest.length = offsets.length ∧
        dest.getD 0 0 = image.length ∧
        (∀ i, i + 1 < offsets.length →
          dest.getD (i + 1) 0 = dest.getD i 0 + lengths.getD i 0) ∧
        (∀ i, i < offsets.length →
          ((image ++ ((List.range offsets.length).map fun j =>
              (source.drop (offsets.getD j 0)).take (lengths.getD j 0)).flatten).drop
            (dest.getD i 0)).take (lengths.getD i 0) =
            (source.drop (offsets.getD i 0)).take (lengths.getD i 0)) := by
  intro image source offsets lengths source_length hne heq hsl hchk
  have hnpos : 0 < offsets.length := List.length_pos.mpr hne
  have hlne : lengths ≠ [] := List.length_pos.mp (heq ▸ hnpos)
  refine ⟨(List.range offsets.length).map (fun i => image.length + (lengths.take i).sum),
    ?_, ?_, ?_, ?_, ?_⟩
  · unfold copyTagData
    have hset : setPanic (List.replicate offsets.length 0) 0 image.length =
        some ((List.replicate offsets.length 0).set 0 image.length) := by
      rw [setPanic_some_iff]
      exact ⟨by simpa using hnpos, rfl⟩
    have hcl := copyLoop_all_valid source lengths source_length hsl offsets 0 image
      (by omega) (fun j hj => by simpa using hchk j hj)
    simp only [Nat.zero_add] at hcl
    have hdg := destGo_from_zero lengths offsets.length image.length heq.symm hlne
    simp only [hset, hcl, hdg, Option.bind_eq_bind, Option.some_bind, Option.pure_def,
      Option.some_inj]
  · simp
  · rw [getD_map_range 0 _ _ 0 hnpos]
    simp
  · intro i hi
    rw [getD_map_range 0 _ _ (i + 1) hi, getD_map_range 0 _ _ i (by omega)]
    rw [sum_take_succ_getD lengths i (by omega)]
    omega
  · intro i hi
    rw [getD_map_range 0 _ _ i hi]
    have hdropped : ∀ F : List Nat, (image ++ F).drop (image.length + (lengths.take i).sum) =
        F.drop ((lengths.take i).sum) := by
      intro F
      rw [← List.drop_drop, List.drop_left]
    rw [hdropped]
    have hblen : ∀ j, j < offsets.length →
        ((source.drop (offsets.getD j 0)).take (lengths.getD j 0)).length =
          lengths.getD j 0 := by
      intro j hj
      have hc := (check_offset_iff source_length (offsets.getD j 0) (lengths.getD j 0)).1.mp
        (hchk j hj)
      rw [List.length_take, List.length_drop]
      omega
    have hblocks : ((((List.range offsets.length).map fun j =>
        (source.drop (offsets.getD j 0)).take (lengths.getD j 0)).take i).map
          List.length).sum = (lengths.take i).sum := by
      rw [← List.map_take, List.take_range]
      have hmin : min i offsets.length = i := by omega
      rw [hmin, List.map_map]
      rw [List.map_congr_left (fun j hj => ?_), map_getD_range lengths i (by omega)]
      rw [List.mem_range] at hj
      exact hblen j (by omega)
    have hb := flatten_block_at ((List.range offsets.length).map fun j =>
        (source.drop (offsets.getD j 0)).take (lengths.getD j 0)) i (by simpa using hi)
    rw [hblocks] at hb
    rw [getD_map_range ([] : List Nat) _ _ i hi] at hb
    rw [hblen i hi] at hb
    exact hb

/-- Witness for C1 at concrete inputs: two valid ranges of a 14-byte
source copied into an image of length 2. -/
theorem copyTagData_copies_ranges_witness :
    ∃ dest : List Nat,
      copyTagData [7, 7] [0, 0, 0, 0, 0, 0, 0, 0, 1, 2, 3, 4, 5, 6] [8, 11] [3, 2] 14 =
        some ([7, 7] ++ ((List.range ([8, 11] : List Nat).length).map fun j =>
          (([0, 0, 0, 0, 0, 0, 0, 0, 1, 2, 3, 4, 5, 6] : List Nat).drop
            (([8, 11] : List Nat).getD j 0)).take (([3, 2] : List Nat).getD j 0)).flatten,
          dest) ∧
      dest.length = ([8, 11] : List Nat).length ∧
      dest.getD 0 0 = ([7, 7] : List Nat).length ∧
      (∀ i, i + 1 < ([8, 11] : List Nat).length →
        dest.getD (i + 1) 0 = dest.getD i 0 + ([3, 2] : List Nat).getD i 0) ∧
      (∀ i, i < ([8, 11] : List Nat).length →
        (([7, 7] ++ ((List.range ([8, 11] : List Nat).length).map fun j =>
            (([0, 0, 0, 0, 0, 0, 0, 0, 1, 2, 3, 4, 5, 6] : List Nat).drop
              (([8, 11] : List Nat).getD j 0)).take
                (([3, 2] : List Nat).getD j 0)).flatten).drop
          (dest.getD i 0)).take (([3, 2] : List Nat).getD i 0) =
          (([0, 0, 0, 0, 0, 0, 0, 0, 1, 2, 3, 4, 5, 6] : List Nat).drop
            (([8, 11] : List Nat).getD i 0)).take (([3, 2] : List Nat).getD i 0)) :=
  copyTagData_copies_ranges [7, 7] [0, 0, 0, 0, 0, 0, 0, 0, 1, 2, 3, 4, 5, 6] [8, 11] [3, 2]
    14 (by decide) (by decide) (by decide) (by decide)

end Skora

namespace Skora

theorem foldl_append_blocks {α : Type} (g : α → List Nat) (f : List Nat → α → List Nat)
    (hf : ∀ buf x, f buf x = buf ++ g x) :
    ∀ (v : List α) (acc : List Nat), v.foldl f acc = acc ++ (v.map g).flatten := by
  intro v
  induction v with
  | nil => intro acc; simp
  | cons x xs ih =>
    intro acc
    simp only [List.foldl_cons, List.map_cons, List.flatten_cons]
    rw [hf, ih, List.append_assoc]

theorem range_map_getD {β : Type} (d : β) (l : List β) :
    ∀ i, i ≤ l.length → (List.range i).map (fun j => l.getD j d) = l.take i := by
  induction l with
  | nil =>
    intro i h
    have hi0 : i = 0 := by simpa using h
    subst hi0
    simp
  | cons x xs ih =>
    intro i h
    cases i with
    | zero => simp
    | succ k =>
      rw [List.range_succ_eq_map, List.map_cons, List.map_map]
      simp only [List.getD_cons_zero, Function.comp_def, List.getD_cons_succ,
        List.take_succ_cons]
      rw [ih k (by simpa using h)]

theorem slice_flatten_fixed {β : Type} (d : β) (g : β → List Nat) (w : Nat)
    (hw : ∀ x, (g x).length = w) :
    ∀ (v : List β) (n : Nat), n < v.length →
      (((v.map g).flatten.drop (n * w)).take w) = g (v.getD n d) := by
  intro v
  induction v with
  | nil => intro n h; simp at h
  | cons x xs ih =>
    intro n h
    cases n with
    | zero =>
      simp only [Nat.zero_mul, List.drop_zero, List.map_cons, List.flatten_cons,
        List.getD_cons_zero]
      rw [← hw x, List.take_left]
    | succ m =>
      simp only [List.map_cons, List.flatten_cons, List.getD_cons_succ]
      have harith : (m + 1) * w = w + m * w := by ring
      rw [harith, ← List.drop_drop]
      have hx : (g x ++ (xs.map g).flatten).drop w = (xs.map g).flatten := by
        rw [← hw x, List.drop_left]
      rw [hx]
      exact ih m (by simpa using h)

theorem orderRead_bytes16 (e : Endian) (x : Nat) (h : x < 2 ^ 16) :
    orderRead e (bytes16 e x) 2 = x := by
  cases e <;> simp [orderRead, bytes16, beVal] <;> omega

theorem orderRead_bytes32 (e : Endian) (x : Nat) (h : x < 2 ^ 32) :
    orderRead e (bytes32 e x) 4 = x := by
  cases e <;> simp [orderRead, bytes32, beVal] <;> omega

theorem orderRead_single (e : Endian) (x : Nat) :
    orderRead e [x] 1 = x := by
  cases e <;> simp [orderRead, beVal]

end Skora


namespace Skora

theorem utf8Step_encode (c : Char) (rest : List Nat) :
    ∃ b0 t, utf8EncodeCharNat c.toNat = b0 :: t ∧
      utf8Step b0 (t ++ rest) = (c, rest) := by
  have hv : c.toNat < 0xd800 ∨ (0xdfff < c.toNat ∧ c.toNat < 0x110000) := c.valid
  have hofn : Char.ofNat c.toNat = c := Char.ofNat_toNat c
  set n := c.toNat with hn
  have hmax : n < 0x110000 := by omega
  by_cases h1 : n < 0x80
  · refine ⟨n, [], by simp [utf8EncodeCharNat, h1], ?_⟩
    unfold utf8Step
    rw [if_pos h1, List.nil_append, hofn]
  · by_cases h2 : n < 0x800
    · refine ⟨0xC0 + n / 64, [0x80 + n % 64],
        by simp only [utf8EncodeCharNat, if_neg h1, if_pos h2], ?_⟩
      rw [List.cons_append, List.nil_append]
      unfold utf8Step
      rw [if_neg (by omega), if_pos (by constructor <;> omega)]
      simp only []
      rw [if_pos ?side2]
      case side2 =>
        constructor
        · simp only [isCont, Bool.and_eq_true, decide_eq_true_eq]
          constructor <;> omega
        · omega
      have harg : (0xC0 + n / 64 - 0xC0) * 64 + (0x80 + n % 64 - 0x80) = n := by omega
      rw [harg, hofn]
    · by_cases h3 : n < 0x10000
      · refine ⟨0xE0 + n / 4096, [0x80 + n / 64 % 64, 0x80 + n % 64],
          by simp only [utf8EncodeCharNat, if_neg h1, if_neg h2, if_pos h3], ?_⟩
        rw [List.cons_append, List.cons_append, List.nil_append]
        unfold utf8Step
        rw [if_neg (by omega), if_neg (by omega), if_pos (by constructor <;> omega)]
        simp only []
        rw [if_pos ?side3]
        case side3 =>
          refine ⟨?_, ?_, ?_, ?_⟩
          · simp only [isCont, Bool.and_eq_true, decide_eq_true_eq]
            constructor <;> omega
          · simp only [isCont, Bool.and_eq_true, decide_eq_true_eq]
            constructor <;> omega
          · omega
          · omega
        have harg : (0xE0 + n / 4096 - 0xE0) * 4096 + (0x80 + n / 64 % 64 - 0x80) * 64 +
            (0x80 + n % 64 - 0x80) = n := by omega
        rw [harg, hofn]
      · refine ⟨0xF0 + n / 262144, [0x80 + n / 4096 % 64, 0x80 + n / 64 % 64, 0x80 + n % 64],
          by simp only [utf8EncodeCharNat, if_neg h1, if_neg h2, if_neg h3], ?_⟩
        rw [List.cons_append, List.cons_append, List.cons_append, List.nil_append]
        unfold utf8Step
        rw [if_neg (by omega), if_neg (by omega), if_neg (by omega),
          if_pos (by constructor <;> omega)]
        simp only []
        rw [if_pos ?side4]
        case side4 =>
          refine ⟨?_, ?_, ?_, ?_, ?_⟩
          · simp only [isCont, Bool.and_eq_true, decide_eq_true_eq]
            constructor <;> omega
          · simp only [isCont, Bool.and_eq_true, decide_eq_true_eq]
            constructor <;> omega
          · simp only [isCont, Bool.and_eq_true, decide_eq_true_eq]
            constructor <;> omega
          · omega
          · omega
        have harg : (0xF0 + n / 262144 - 0xF0) * 262144 + (0x80 + n / 4096 % 64 - 0x80) * 4096 +
            (0x80 + n / 64 % 64 - 0x80) * 64 + (0x80 + n % 64 - 0x80) = n := by omega
        rw [harg, hofn]

theorem utf8_decode_encode_char (c : Char) (rest : List Nat) :
    utf8DecodeLossy (utf8EncodeCharNat c.toNat ++ rest) = c :: utf8DecodeLossy rest := by
  obtain ⟨b0, t, henc, hstep⟩ := utf8Step_encode c rest
  rw [henc, List.cons_append, utf8DecodeLossy, hstep]

theorem utf8DecodeLossy_strBytes (s : String) :
    utf8DecodeLossy (strBytes s) = s.data := by
  obtain ⟨l⟩ := s
  show utf8DecodeLossy ((l.map (fun c => utf8EncodeCharNat c.toNat)).flatten) = l
  induction l with
  | nil => simp [utf8DecodeLossy]
  | cons c cs ih =>
    simp only [List.map_cons, List.flatten_cons]
    rw [utf8_decode_encode_char c, ih]

theorem fromUtf8Lossy_strBytes (s : String) : fromUtf8Lossy (strBytes s) = s := by
  unfold fromUtf8Lossy
  rw [utf8DecodeLossy_strBytes]

end Skora

namespace Skora

theorem bytes16_length (e : Endian) (x : Nat) : (bytes16 e x).length = 2 := by
  cases e <;> rfl

theorem bytes32_length (e : Endian) (x : Nat) : (bytes32 e x).length = 4 := by
  cases e <;> rfl

theorem getD_mem {β : Type} {l : List β} {k : Nat} (d : β) (hk : k < l.length) :
    l.getD k d ∈ l := by
  rw [List.getD_eq_getElem?_getD, List.getElem?_eq_getElem hk]
  exact List.getElem_mem hk

theorem sum_length_take_fixed (w : Nat) :
    ∀ (blocks : List (List Nat)), (∀ b ∈ blocks, b.length = w) →
      ∀ i, i ≤ blocks.length → ((blocks.take i).map List.length).sum = i * w := by
  intro blocks
  induction blocks with
  | nil =>
    intro _ i h
    have hi0 : i = 0 := by simpa using h
    subst hi0
    simp
  | cons b bs ih =>
    intro hw i h
    cases i with
    | zero => simp
    | succ k =>
      simp only [List.take_succ_cons, List.map_cons, List.sum_cons]
      rw [hw b (by simp), ih (fun x hx => hw x (by simp [hx])) k (by simpa using h)]
      ring

theorem rational_raw_access (e : Endian) (l : List (Rat × Nat × Nat)) (k : Nat)
    (hk : k < l.length) :
    ((((l.map fun t => bytes32 e t.2.1 ++ bytes32 e t.2.2).flatten.drop
        (k * 2 * 4)).take 4) = bytes32 e ((l.getD k (0, 0, 0)).2.1)) ∧
    ((((l.map fun t => bytes32 e t.2.1 ++ bytes32 e t.2.2).flatten.drop
        ((k * 2 + 1) * 4)).take 4) = bytes32 e ((l.getD k (0, 0, 0)).2.2)) := by
  have hw : ∀ b ∈ l.map fun t => bytes32 e t.2.1 ++ bytes32 e t.2.2, b.length = 8 := by
    intro b hb
    rw [List.mem_map] at hb
    obtain ⟨t, _, rfl⟩ := hb
    rw [List.length_append, bytes32_length, bytes32_length]
  have hdropk : (l.map fun t => bytes32 e t.2.1 ++ bytes32 e t.2.2).flatten.drop (k * 8) =
      bytes32 e ((l.getD k (0, 0, 0)).2.1) ++ (bytes32 e ((l.getD k (0, 0, 0)).2.2) ++
        ((l.map fun t => bytes32 e t.2.1 ++ bytes32 e t.2.2).drop (k + 1)).flatten) := by
    have hsum := sum_length_take_fixed 8 _ hw k (by simpa using le_of_lt hk)
    have hd := flatten_drop_blocks (l.map fun t => bytes32 e t.2.1 ++ bytes32 e t.2.2) k
      (by simpa using le_of_lt hk)
    rw [hsum] at hd
    rw [hd, List.drop_eq_getElem_cons (by simpa using hk), List.flatten_cons]
    have hgd : (l.map fun t => bytes32 e t.2.1 ++ bytes32 e t.2.2).get
        ⟨k, by simpa using hk⟩ =
        bytes32 e ((l.getD k (0, 0, 0)).2.1) ++ bytes32 e ((l.getD k (0, 0, 0)).2.2) := by
      simp only [List.get_eq_getElem, List.getElem_map]
      rw [List.getD_eq_getElem]
    rw [List.get_eq_getElem] at hgd
    rw [hgd, List.append_assoc]
  constructor
  · have h84 : k * 2 * 4 = k * 8 := by ring
    rw [h84, hdropk]
    rw [← bytes32_length e ((l.getD k (0, 0, 0)).2.1), List.take_left]
  · have h84 : (k * 2 + 1) * 4 = k * 8 + 4 := by ring
    have hsplit : (l.map fun t => bytes32 e t.2.1 ++ bytes32 e t.2.2).flatten.drop
        (k * 8 + 4) = ((l.map fun t => bytes32 e t.2.1 ++
          bytes32 e t.2.2).flatten.drop (k * 8)).drop 4 := by
      rw [List.drop_drop]
    rw [h84, hsplit, hdropk]
    rw [← bytes32_length e ((l.getD k (0, 0, 0)).2.1), List.drop_left]
    rw [bytes32_length e ((l.getD k (0, 0, 0)).2.1),
      ← bytes32_length e ((l.getD k (0, 0, 0)).2.2), List.take_left]

end Skora

namespace Skora

/-- C7: decoding the encoding is the identity — for every `Data` value
of each variant (with `u16`/`u32` elements in range, any string for
ASCII, and rationals with nonzero denominator whose first component is
the quotient of its pair) and both endiannesses,
`Data::new(v.to_vec_u8(endian), v's type, endian, v's count) == v`. -/
theorem data_new_roundtrip :
    ∀ (endian : Endian) (v : Data), v.WellFormed →
      Data.new (v.to_vec_u8 endian) v.dataTypeOf endian v.elemCount = v := by
  intro e v hwf
  cases v with
  | Byte l =>
    simp only [Data.to_vec_u8, Data.dataTypeOf, Data.elemCount, Data.new]
    rw [foldl_append_blocks (fun x => [x]) (fun buf number => orderWrite8 e buf number)
      (fun buf x => rfl) l []]
    simp only [List.nil_append]
    congr 1
    have hkey : ∀ n ∈ List.range l.length,
        orderRead e (((l.map fun x => [x]).flatten.drop n).take 1) 1 = l.getD n 0 := by
      intro n hn
      rw [List.mem_range] at hn
      have hs := slice_flatten_fixed 0 (fun x => [x]) 1 (fun x => rfl) l n hn
      rw [Nat.mul_one] at hs
      rw [hs, orderRead_single]
    rw [List.map_congr_left hkey, range_map_getD 0 l l.length le_rfl, List.take_length]
  | Ascii s =>
    simp only [Data.to_vec_u8, Data.dataTypeOf, Data.elemCount, Data.new]
    rw [fromUtf8Lossy_strBytes]
  | Short l =>
    simp only [Data.WellFormed] at hwf
    simp only [Data.to_vec_u8, Data.dataTypeOf, Data.elemCount, Data.new]
    rw [foldl_append_blocks (bytes16 e) (fun buf number => orderWrite16 e buf number)
      (fun buf x => rfl) l []]
    simp only [List.nil_append]
    congr 1
    have hkey : ∀ n ∈ List.range l.length,
        orderRead e (((l.map (bytes16 e)).flatten.drop (n * 2)).take 2) 2 = l.getD n 0 := by
      intro n hn
      rw [List.mem_range] at hn
      rw [slice_flatten_fixed 0 (bytes16 e) 2 (bytes16_length e) l n hn]
      exact orderRead_bytes16 e _ (hwf _ (getD_mem 0 hn))
    rw [List.map_congr_left hkey, range_map_getD 0 l l.length le_rfl, List.take_length]
  | Long l =>
    simp only [Data.WellFormed] at hwf
    simp only [Data.to_vec_u8, Data.dataTypeOf, Data.elemCount, Data.new]
    rw [foldl_append_blocks (bytes32 e) (fun buf number => orderWrite32 e buf number)
      (fun buf x => rfl) l []]
    simp only [List.nil_append]
    congr 1
    have hkey : ∀ n ∈ List.range l.length,
        orderRead e (((l.map (bytes32 e)).flatten.drop (n * 4)).take 4) 4 = l.getD n 0 := by
      intro n hn
      rw [List.mem_range] at hn
      rw [slice_flatten_fixed 0 (bytes32 e) 4 (bytes32_length e) l n hn]
      exact orderRead_bytes32 e _ (hwf _ (getD_mem 0 hn))
    rw [List.map_congr_left hkey, range_map_getD 0 l l.length le_rfl, List.take_length]
  | Rational l =>
    simp only [Data.WellFormed] at hwf
    simp only [Data.to_vec_u8, Data.dataTypeOf, Data.elemCount, Data.new]
    rw [foldl_append_blocks (fun t => bytes32 e t.2.1 ++ bytes32 e t.2.2)
      (fun buf number => orderWrite32 e (orderWrite32 e buf number.2.1) number.2.2)
      (fun buf x => by simp [orderWrite32, List.append_assoc]) l []]
    simp only [List.nil_append]
    congr 1
    have hcell1 : ∀ n, n < l.length →
        ((List.range (l.length * 2)).map fun m => orderRead e
          (((l.map fun t => bytes32 e t.2.1 ++ bytes32 e t.2.2).flatten.drop (m * 4)).take 4)
            4).getD (n * 2) 0 = (l.getD n (0, 0, 0)).2.1 := by
      intro n hn
      rw [getD_map_range 0 _ (l.length * 2) (n * 2) (by omega)]
      rw [(rational_raw_access e l n hn).1]
      exact orderRead_bytes32 e _ (hwf _ (getD_mem (0, 0, 0) hn)).1
    have hcell2 : ∀ n, n < l.length →
        ((List.range (l.length * 2)).map fun m => orderRead e
          (((l.map fun t => bytes32 e t.2.1 ++ bytes32 e t.2.2).flatten.drop (m * 4)).take 4)
            4).getD (n * 2 + 1) 0 = (l.getD n (0, 0, 0)).2.2 := by
      intro n hn
      rw [getD_map_range 0 _ (l.length * 2) (n * 2 + 1) (by omega)]
      rw [(rational_raw_access e l n hn).2]
      exact orderRead_bytes32 e _ (hwf _ (getD_mem (0, 0, 0) hn)).2.1
    have hkey : ∀ n ∈ List.range l.length,
        ((((List.range (l.length * 2)).map fun m => orderRead e
            (((l.map fun t => bytes32 e t.2.1 ++ bytes32 e t.2.2).flatten.drop
              (m * 4)).take 4) 4).getD (n * 2) 0 : Rat) /
          (((List.range (l.length * 2)).map fun m => orderRead e
            (((l.map fun t => bytes32 e t.2.1 ++ bytes32 e t.2.2).flatten.drop
              (m * 4)).take 4) 4).getD (n * 2 + 1) 0 : Rat),
          ((List.range (l.length * 2)).map fun m => orderRead e
            (((l.map fun t => bytes32 e t.2.1 ++ bytes32 e t.2.2).flatten.drop
              (m * 4)).take 4) 4).getD (n * 2) 0,
          ((List.range (l.length * 2)).map fun m => orderRead e
            (((l.map fun t => bytes32 e t.2.1 ++ bytes32 e t.2.2).flatten.drop
              (m * 4)).take 4) 4).getD (n * 2 + 1) 0) = l.getD n (0, 0, 0) := by
      intro n hn
      rw [List.mem_range] at hn
      rw [hcell1 n hn, hcell2 n hn]
      have h4 := (hwf _ (getD_mem (0, 0, 0) hn)).2.2.2
      rw [← h4]
    rw [List.map_congr_left hkey, range_map_getD (0, 0, 0) l l.length le_rfl,
      List.take_length]

/-- Witness for C7 at concrete values: a rational pair (numerator 1,
denominator 2) in little-endian. -/
theorem data_new_roundtrip_witness :
    Data.new ((Data.Rational [((1 : Rat) / 2, 1, 2)]).to_vec_u8 Endian.Little)
      (Data.Rational [((1 : Rat) / 2, 1, 2)]).dataTypeOf Endian.Little
      (Data.Rational [((1 : Rat) / 2, 1, 2)]).elemCount =
      Data.Rational [((1 : Rat) / 2, 1, 2)] :=
  data_new_roundtrip Endian.Little (Data.Rational [((1 : Rat) / 2, 1, 2)])
    (by
      intro t ht
      simp only [List.mem_singleton] at ht
      subst ht
      refine ⟨by norm_num, by norm_num, by norm_num, rfl⟩)

end Skora

namespace Skora

theorem RunRes.bind_eq_ok {α β : Type} {x : RunRes α} {f : α → RunRes β} {b : β} :
    RunRes.bind x f = .ok b ↔ ∃ a, x = .ok a ∧ f a = .ok b := by
  cases x <;> simp [RunRes.bind]

theorem liftPanic_eq_ok {α : Type} {o : Option α} {a : α} :
    liftPanic o = .ok a ↔ o = some a := by
  cases o <;> simp [liftPanic]

theorem ifdWalk_append :
    ∀ fuel : Nat,
      (∀ file info off acc next acc',
        readIfd file info off acc fuel = .ok (next, acc') →
        (next = none ∧ acc' = acc) ∨
          (∃ nxt children dir, next = some nxt ∧ acc' = acc ++ children ++ [dir] ∧
            dir.offset = off)) ∧
      (∀ file info tags acc tags' acc',
        tagDataLoop file info tags acc fuel = .ok (tags', acc') →
        ∃ d, acc' = acc ++ d) ∧
      (∀ file info offs acc acc',
        offsetsChain file info offs acc fuel = .ok acc' → ∃ d, acc' = acc ++ d) ∧
      (∀ file info next acc acc',
        ifdChain file info next acc fuel = .ok acc' → ∃ d, acc' = acc ++ d) := by
  intro fuel
  induction fuel with
  | zero =>
    refine ⟨?_, ?_, ?_, ?_⟩
    · intro file info off acc next acc' h
      simp [readIfd] at h
    · intro file info tags acc tags' acc' h
      simp [tagDataLoop] at h
    · intro file info offs acc acc' h
      simp [offsetsChain] at h
    · intro file info next acc acc' h
      simp [ifdChain] at h
  | succ fuel ih =>
    obtain ⟨ih1, ih2, ih3, ih4⟩ := ih
    refine ⟨?_, ?_, ?_, ?_⟩
    · -- readIfd appends its descendants then itself
      intro file info off acc next acc' h
      obtain ⟨en, bt, fi, hd, sz⟩ := info
      cases bt with
      | false =>
        cases hc : check_offset sz off 6 with
        | true =>
          simp only [readIfd, Bool.false_eq_true, if_false, hc] at h
          simp only [RunRes.bind_eq, RunRes.bind_eq_ok, RunRes.pure_eq] at h
          obtain ⟨b1, hb1, h⟩ := h
          obtain ⟨⟨tagCount, off1⟩, hy, h⟩ := h
          obtain ⟨⟨tags, off2⟩, h2, h⟩ := h
          obtain ⟨b2, hb2, h⟩ := h
          obtain ⟨nextIfd, h3, h⟩ := h
          obtain ⟨⟨tags2, acc2⟩, h4, h⟩ := h
          simp only [RunRes.ok.injEq, Prod.mk.injEq] at h
          obtain ⟨hnext, hacc⟩ := h
          obtain ⟨d, rfl⟩ := ih2 _ _ tags acc tags2 acc2 h4
          right
          exact ⟨nextIfd, d, _, hnext.symm, by rw [← hacc], rfl⟩
        | false =>
          simp only [readIfd, Bool.false_eq_true, if_false, hc, RunRes.ok.injEq,
            Prod.mk.injEq] at h
          exact Or.inl ⟨h.1.symm, h.2.symm⟩
      | true =>
        cases hc : check_offset sz off 16 with
        | true =>
          simp only [readIfd, eq_self_iff_true, if_true, hc] at h
          simp only [RunRes.bind_eq, RunRes.bind_eq_ok, RunRes.pure_eq] at h
          obtain ⟨b1, hb1, h⟩ := h
          obtain ⟨⟨tagCount, off1⟩, hy, h⟩ := h
          obtain ⟨⟨tags, off2⟩, h2, h⟩ := h
          obtain ⟨b2, hb2, h⟩ := h
          obtain ⟨nextIfd, h3, h⟩ := h
          obtain ⟨⟨tags2, acc2⟩, h4, h⟩ := h
          simp only [RunRes.ok.injEq, Prod.mk.injEq] at h
          obtain ⟨hnext, hacc⟩ := h
          obtain ⟨d, rfl⟩ := ih2 _ _ tags acc tags2 acc2 h4
          right
          exact ⟨nextIfd, d, _, hnext.symm, by rw [← hacc], rfl⟩
        | false =>
          simp only [readIfd, eq_self_iff_true, if_true, hc, RunRes.ok.injEq,
            Prod.mk.injEq] at h
          exact Or.inl ⟨h.1.symm, h.2.symm⟩
    · -- tagDataLoop only appends
      intro file info tags acc tags' acc' h
      match tags with
      | [] =>
        simp only [tagDataLoop, RunRes.ok.injEq, Prod.mk.injEq] at h
        exact ⟨[], by simp [h.2.symm]⟩
      | (tagNum, tagInfo) :: rest =>
        simp only [tagDataLoop] at h
        simp only [RunRes.bind_eq, RunRes.bind_eq_ok, RunRes.pure_eq] at h
        obtain ⟨rawData, h1, h⟩ := h
        replace h := h.symm
        cases h330 : tagNum == 330 with
        | true =>
          cases hdata : Data.new rawData tagInfo.datatype info.endian tagInfo.count with
          | Long subs =>
            simp only [h330, hdata] at h
            cases hl : offsetsChain file info subs acc fuel with
            | ok l =>
              rw [hl] at h
              simp only [RunRes.ok_bind] at h
              cases h3 : tagDataLoop file info rest l fuel with
              | ok p =>
                obtain ⟨p1, p2⟩ := p
                rw [h3] at h
                simp only [RunRes.ok_bind, RunRes.ok.injEq, Prod.mk.injEq] at h
                obtain ⟨d, rfl⟩ := ih3 file info subs acc l hl
                obtain ⟨d2, rfl⟩ := ih2 file info rest (acc ++ d) p1 p2 h3
                refine ⟨d ++ d2, ?_⟩
                rw [← List.append_assoc]
                exact h.2
              | err e => rw [h3] at h; simp at h
              | panic => rw [h3] at h; simp at h
              | fuelOut => rw [h3] at h; simp at h
            | err e => rw [hl] at h; simp at h
            | panic => rw [hl] at h; simp at h
            | fuelOut => rw [hl] at h; simp at h
          | Byte x =>
            simp only [h330, hdata, RunRes.ok_bind] at h
            cases h3 : tagDataLoop file info rest acc fuel with
            | ok p =>
              obtain ⟨p1, p2⟩ := p
              rw [h3] at h
              simp only [RunRes.ok_bind, RunRes.ok.injEq, Prod.mk.injEq] at h
              obtain ⟨d2, rfl⟩ := ih2 file info rest acc p1 p2 h3
              exact ⟨d2, h.2⟩
            | err e => rw [h3] at h; simp at h
            | panic => rw [h3] at h; simp at h
            | fuelOut => rw [h3] at h; simp at h
          | Ascii x =>
            simp only [h330, hdata, RunRes.ok_bind] at h
            cases h3 : tagDataLoop file info rest acc fuel with
            | ok p =>
              obtain ⟨p1, p2⟩ := p
              rw [h3] at h
              simp only [RunRes.ok_bind, RunRes.ok.injEq, Prod.mk.injEq] at h
              obtain ⟨d2, rfl⟩ := ih2 file info rest acc p1 p2 h3
              exact ⟨d2, h.2⟩
            | err e => rw [h3] at h; simp at h
            | panic => rw [h3] at h; simp at h
            | fuelOut => rw [h3] at h; simp at h
          | Short x =>
            simp only [h330, hdata, RunRes.ok_bind] at h
            cases h3 : tagDataLoop file info rest acc fuel with
            | ok p =>
              obtain ⟨p1, p2⟩ := p
              rw [h3] at h
              simp only [RunRes.ok_bind, RunRes.ok.injEq, Prod.mk.injEq] at h
              obtain ⟨d2, rfl⟩ := ih2 file info rest acc p1 p2 h3
              exact ⟨d2, h.2⟩
            | err e => rw [h3] at h; simp at h
            | panic => rw [h3] at h; simp at h
            | fuelOut => rw [h3] at h; simp at h
          | Rational x =>
            simp only [h330, hdata, RunRes.ok_bind] at h
            cases h3 : tagDataLoop file info rest acc fuel with
            | ok p =>
              obtain ⟨p1, p2⟩ := p
              rw [h3] at h
              simp only [RunRes.ok_bind, RunRes.ok.injEq, Prod.mk.injEq] at h
              obtain ⟨d2, rfl⟩ := ih2 file info rest acc p1 p2 h3
              exact ⟨d2, h.2⟩
            | err e => rw [h3] at h; simp at h
            | panic => rw [h3] at h; simp at h
            | fuelOut => rw [h3] at h; simp at h
        | false =>
          simp only [h330, RunRes.ok_bind] at h
          cases h3 : tagDataLoop file info rest acc fuel with
          | ok p =>
            obtain ⟨p1, p2⟩ := p
            rw [h3] at h
            simp only [RunRes.ok_bind, RunRes.ok.injEq, Prod.mk.injEq] at h
            obtain ⟨d2, rfl⟩ := ih2 file info rest acc p1 p2 h3
            exact ⟨d2, h.2⟩
          | err e => rw [h3] at h; simp at h
          | panic => rw [h3] at h; simp at h
          | fuelOut => rw [h3] at h; simp at h
    · -- offsetsChain only appends
      intro file info offs acc acc' h
      match offs with
      | [] =>
        simp only [offsetsChain, RunRes.ok.injEq] at h
        exact ⟨[], by simp [h.symm]⟩
      | o :: os =>
        simp only [offsetsChain] at h
        simp only [RunRes.bind_eq, RunRes.bind_eq_ok] at h
        obtain ⟨l, h1, h2⟩ := h
        obtain ⟨d1, rfl⟩ := ih4 file info o acc l h1
        obtain ⟨d2, rfl⟩ := ih3 file info os (acc ++ d1) acc' h2
        exact ⟨d1 ++ d2, by simp [List.append_assoc]⟩
    · -- ifdChain only appends
      intro file info next acc acc' h
      simp only [ifdChain] at h
      by_cases hnext : next > 0
      · rw [if_pos hnext] at h
        cases hri : readIfd file info next acc fuel with
        | ok p =>
          rw [hri] at h
          match p, h with
          | (some nxt, l), h =>
            rcases ih1 file info next acc (some nxt) l hri with ⟨hcon, _⟩ |
              ⟨nxt2, c, dir, _, hl, _⟩
            · exact absurd hcon (by simp)
            · obtain ⟨d2, rfl⟩ := ih4 file info nxt l acc' h
              exact ⟨c ++ [dir] ++ d2, by rw [hl]; simp [List.append_assoc]⟩
          | (none, l), h => simp at h
        | err e => rw [hri] at h; simp at h
        | panic => rw [hri] at h; simp at h
        | fuelOut => rw [hri] at h; simp at h
      · rw [if_neg hnext] at h
        simp only [RunRes.ok.injEq] at h
        exact ⟨[], by simp [h.symm]⟩

end Skora

namespace Skora

/-- C2: the flat directory list is built depth-first, children before
parent — whenever `read_ifd` succeeds on a directory, everything it
adds to the list consists of the directories discovered through its
tag-330 sub-directory offsets followed by the directory itself, so
every such descendant is appended strictly before the directory that
references it; and the sub-chains of a tag-330 offset list are walked
in the listed order, the first offset's chain appending its
directories before those of the remaining offsets. -/
theorem readIfd_children_before_parent :
    (∀ fuel file info off acc next acc',
      readIfd file info off acc fuel = .ok (some next, acc') →
      ∃ children dir, acc' = acc ++ children ++ [dir] ∧ dir.offset = off) ∧
    (∀ fuel file info o os acc acc',
      offsetsChain file info (o :: os) acc (fuel + 1) = .ok acc' →
      ∃ d1 d2, ifdChain file info o acc fuel = .ok (acc ++ d1) ∧
        offsetsChain file info os (acc ++ d1) fuel = .ok ((acc ++ d1) ++ d2) ∧
        acc' = (acc ++ d1) ++ d2) := by
  constructor
  · intro fuel file info off acc next acc' h
    rcases (ifdWalk_append fuel).1 file info off acc (some next) acc' h with
      ⟨hc, _⟩ | ⟨nxt, c, dir, _, hl, hoff⟩
    · exact absurd hc (by simp)
    · exact ⟨c, dir, hl, hoff⟩
  · intro fuel file info o os acc acc' h
    simp only [offsetsChain] at h
    simp only [RunRes.bind_eq, RunRes.bind_eq_ok] at h
    obtain ⟨l, h1, h2⟩ := h
    obtain ⟨d1, rfl⟩ := (ifdWalk_append fuel).2.2.2 file info o acc l h1
    obtain ⟨d2, rfl⟩ := (ifdWalk_append fuel).2.2.1 file info os (acc ++ d1) acc' h2
    exact ⟨d1, d2, h1, h2, rfl⟩

/-- Witness for C2 at a concrete classic little-endian file with one
empty directory at offset 8. -/
theorem readIfd_children_before_parent_witness :
    ∃ children dir,
      ([{ endian := Endian.Little, big_tiff := false, offset := 8, size := 14,
          tag_count := 0, tags := [] }] : List Ifd) = [] ++ children ++ [dir] ∧
        dir.offset = 8 :=
  readIfd_children_before_parent.1 5
    [0x49, 0x49, 0x2A, 0x00, 8, 0, 0, 0, 0, 0, 0, 0, 0, 0]
    { endian := Endian.Little, big_tiff := false, first_ifd := 8,
      header := [0x49, 0x49, 0x2A, 0x00], size := 14 }
    8 [] 0
    [{ endian := Endian.Little, big_tiff := false, offset := 8, size := 14,
       tag_count := 0, tags := [] }]
    (by decide)

end Skora
